import Mathlib

/-!
Verification of the blake3-lamport-signatures crate.

Shallow embedding conventions:
* Bytes are `Nat` values; byte strings are `List Nat`.
* The BLAKE3 hash function is an external collaborator.  Following the
  specification it is treated as an opaque function `H : List Nat → List Nat`
  producing a 32-byte digest; every definition is parametrised by `H`.
  Concrete evaluations instantiate `H` with the executable stand-in `hC`.
* Fixed-size arrays `[u8; 8192]` and `[u8; 16384]` inside Lamport keys are
  modelled by their aligned 32-byte chunk decomposition
  (`List (List Nat)` with 256 chunks of 32 bytes), which is the only way the
  source accesses them.  Shape side conditions appear as `InRange` predicates.
* A Rust panic (out-of-bounds indexing, or integer-overflow abort on `usize`
  and `u64` subtraction) is modelled as `Except.error ()`; normal results are
  `Except.ok`.  Fallible decoding returns `Except` of the source error enums.
* `&mut self` methods are translated by returning the new state next to the
  result.
-/

set_option maxRecDepth 100000

/-- Big-endian bytes of a `u64`, as in Rust `u64::to_be_bytes` (a `usize` that
is cast to `u64` first is reduced modulo `2 ^ 64` bytewise). -/
def beBytesU64 (n : Nat) : List Nat :=
  [n / 2 ^ 56 % 256, n / 2 ^ 48 % 256, n / 2 ^ 40 % 256, n / 2 ^ 32 % 256,
   n / 2 ^ 24 % 256, n / 2 ^ 16 % 256, n / 2 ^ 8 % 256, n % 256]

/-- Rust `u64::from_be_bytes` on a list of 8 bytes. -/
def u64FromBeBytes (l : List Nat) : Nat :=
  l.foldl (fun a b => a * 256 + b) 0

/-- Decomposition of a flat byte array into aligned 32-byte chunks, the view
under which the source accesses its `[u8; 8192]` buffers (`chunks(32)`). -/
def chunk32 : List Nat → List (List Nat)
  | [] => []
  | x :: xs => ((x :: xs).take 32) :: chunk32 ((x :: xs).drop 32)
termination_by l => l.length
decreasing_by simp; omega

/-- Checked subtraction modelling Rust integer subtraction, whose underflow
aborts (panics) rather than wrapping to a huge value. -/
def checkedSub (a b : Nat) : Option Nat :=
  if b ≤ a then some (a - b) else none

/-- Observation used to state that a fallible signing call returned an actual
signature (`Ok(Some(..))` as opposed to exhaustion or a panic). -/
def isOkSome {ε α : Type} : Except ε (Option α) → Bool
  | .ok (some _) => true
  | _ => false

instance instDecEqExcept {ε α : Type} [DecidableEq ε] [DecidableEq α] :
    DecidableEq (Except ε α) := fun a b =>
  match a, b with
  | .error x, .error y =>
    if h : x = y then isTrue (by simp [h]) else isFalse (by simp [h])
  | .ok x, .ok y =>
    if h : x = y then isTrue (by simp [h]) else isFalse (by simp [h])
  | .error _, .ok _ => isFalse (by simp)
  | .ok _, .error _ => isFalse (by simp)

/-! ## src/lamport.rs -/

/-- Lamport private key: `left: [u8; 8192]`, `right: [u8; 8192]`, modelled as
their 256 chunks of 32 bytes. -/
structure Lamport.PrivateKey where
  left : List (List Nat)
  right : List (List Nat)
deriving DecidableEq

/-- Lamport public key: 256 left hashes and 256 right hashes of 32 bytes. -/
structure Lamport.PublicKey where
  left_hashes : List (List Nat)
  right_hashes : List (List Nat)
deriving DecidableEq

/-- Lamport signature: `exposed: [u8; 8192]`, modelled as its 256 chunks. -/
structure Lamport.Signature where
  exposed : List (List Nat)
deriving DecidableEq

/-- The eight enumerated cases of `bitmask_for` from src/lamport.rs (the
default arm is unreachable for an argument below 8). -/
def bitmaskForBase (index : Nat) : Nat :=
  match index with
  | 0 => 1
  | 1 => 2
  | 2 => 4
  | 3 => 8
  | 4 => 16
  | 5 => 32
  | 6 => 64
  | 7 => 128
  | _ => 0

/-- `bitmask_for`: the source recursion calls itself at `index % 8 < 8`,
which lands in one of the eight enumerated cases, so that single recursive
step is inlined to keep the definition structurally recursive. -/
def bitmaskFor (index : Nat) : Nat :=
  match index with
  | 0 => 1
  | 1 => 2
  | 2 => 4
  | 3 => 8
  | 4 => 16
  | 5 => 32
  | 6 => 64
  | 7 => 128
  | n + 8 => bitmaskForBase ((n + 8) % 8)

/-- `bit_of_byte`: `byte.to_le() & mask == mask` (`to_le` is the identity on
the little-endian targets the crate runs on). -/
def bitOfByte (index : Nat) (byte : Nat) : Bool :=
  byte &&& bitmaskFor index == bitmaskFor index

/-- `bit_of_byteslice`: bit `i` of a digest selects byte `i / 8` and bit
`i % 8` within it.  The source indexes `bytes[index / 8]` on a 32-byte BLAKE3
digest where the index is always in bounds; `getD` keeps the model total. -/
def bitOfByteslice (index : Nat) (bytes : List Nat) : Bool :=
  bitOfByte (index % 8) (bytes.getD (index / 8) 0)

/-- `PrivateKey::public_key`: hash every 32-byte chunk of both halves.  The
source writes both arrays in a single zipped loop over the 256 chunks. -/
def Lamport.PrivateKey.public_key (H : List Nat → List Nat)
    (k : Lamport.PrivateKey) : Lamport.PublicKey :=
  ⟨k.left.map H, k.right.map H⟩

/-- `PrivateKey::sign`: for each of the 256 digest bits reveal the left chunk
when the bit is set, otherwise the right chunk. -/
def Lamport.PrivateKey.sign (H : List Nat → List Nat)
    (k : Lamport.PrivateKey) (message : List Nat) : Lamport.Signature :=
  let h := H message
  ⟨(List.range 256).map fun i =>
    if bitOfByteslice i h then k.left.getD i [] else k.right.getD i []⟩

/-- `From<&PublicKey> for [u8; 16384]` and `PublicKey::to_bytes`: all left
hashes then all right hashes. -/
def Lamport.PublicKey.to_bytes (pk : Lamport.PublicKey) : List Nat :=
  pk.left_hashes.flatten ++ pk.right_hashes.flatten

/-- `From<&[u8; 16384]> for PublicKey`: first 8192 bytes give the left hashes,
the next 8192 the right hashes. -/
def Lamport.PublicKey.fromBytes (value : List Nat) : Lamport.PublicKey :=
  ⟨chunk32 (value.take 8192), chunk32 ((value.drop 8192).take 8192)⟩

/-- `From<&PrivateKey> for [u8; 16384]`: left half then right half. -/
def Lamport.PrivateKey.toBytes (k : Lamport.PrivateKey) : List Nat :=
  k.left.flatten ++ k.right.flatten

/-- `From<&[u8; 16384]> for PrivateKey`. -/
def Lamport.PrivateKey.fromBytes (value : List Nat) : Lamport.PrivateKey :=
  ⟨chunk32 (value.take 8192), chunk32 ((value.drop 8192).take 8192)⟩

/-- `From<Signature> for [u8; 8192]`. -/
def Lamport.Signature.toBytes (s : Lamport.Signature) : List Nat :=
  s.exposed.flatten

/-- `From<[u8; 8192]> for Signature`. -/
def Lamport.Signature.fromBytes (value : List Nat) : Lamport.Signature :=
  ⟨chunk32 value⟩

/-- `PublicKey::verify`: fold over the signature chunks, requiring the hash of
each revealed chunk to match the committed hash selected by the digest bit.
The source indexes the fixed 256-entry hash arrays; `getD` keeps it total. -/
def Lamport.PublicKey.verify (H : List Nat → List Nat)
    (pk : Lamport.PublicKey) (message : List Nat)
    (signature : Lamport.Signature) : Bool :=
  let msgHash := H message
  (signature.exposed.enum).foldl
    (fun acc pair =>
      acc && decide (H pair.2 =
        (if bitOfByteslice pair.1 msgHash then pk.left_hashes.getD pair.1 []
         else pk.right_hashes.getD pair.1 [])))
    true

/-- Shape invariant of a Lamport private key as guaranteed by the Rust types:
two halves of 256 chunks of 32 bytes. -/
def Lamport.PrivateKey.InRange (k : Lamport.PrivateKey) : Prop :=
  k.left.length = 256 ∧ k.right.length = 256 ∧
  (∀ c ∈ k.left, c.length = 32) ∧ (∀ c ∈ k.right, c.length = 32)

/-- Shape invariant of a Lamport public key. -/
def Lamport.PublicKey.InRange (pk : Lamport.PublicKey) : Prop :=
  pk.left_hashes.length = 256 ∧ pk.right_hashes.length = 256 ∧
  (∀ c ∈ pk.left_hashes, c.length = 32) ∧ (∀ c ∈ pk.right_hashes, c.length = 32)

/-- Shape invariant of a Lamport signature. -/
def Lamport.Signature.InRange (s : Lamport.Signature) : Prop :=
  s.exposed.length = 256 ∧ ∀ c ∈ s.exposed, c.length = 32

instance (k : Lamport.PrivateKey) : Decidable k.InRange := by
  unfold Lamport.PrivateKey.InRange; infer_instance

instance (pk : Lamport.PublicKey) : Decidable pk.InRange := by
  unfold Lamport.PublicKey.InRange; infer_instance

instance (s : Lamport.Signature) : Decidable s.InRange := by
  unfold Lamport.Signature.InRange; infer_instance

/-! ## src/merkle/internal.rs -/

/-- `hash_two_hashes`: hash the concatenation of the two 32-byte digests. -/
def Merkle.hashTwoHashes (H : List Nat → List Nat) (h1 h2 : List Nat) :
    List Nat :=
  H (h1 ++ h2)

/-- The Merkle tree: root plus the levels from the top stored one (front of
the `VecDeque`, head of the list) down to the hashed input leaves (back). -/
structure Merkle.Tree where
  root : List Nat
  levels : List (List (List Nat))
deriving DecidableEq

/-- `Commitment`: root and number of committed items. -/
structure Merkle.Commitment where
  root : List Nat
  num_items : Nat
deriving DecidableEq

/-- `ProofNode` tagged union. -/
inductive Merkle.ProofNode where
  | nodeWithoutSibling : Merkle.ProofNode
  | leftChildWithSibling : List Nat → Merkle.ProofNode
  | rightChildWithSibling : List Nat → Merkle.ProofNode
deriving DecidableEq

/-- `Proof`: the claimed item, its index, and the bottom-up frontier. -/
structure Merkle.Proof where
  item : List Nat
  index : Nat
  frontier : List Merkle.ProofNode
deriving DecidableEq

/-- One pass of the level-construction loop in `Tree::new`: hash adjacent
pairs (`level[i] = H2(prev[2i], prev[2i+1])` for `i < m / 2`) and promote the
final unpaired node unchanged when the width is odd. -/
def Merkle.pairUp (H : List Nat → List Nat) :
    List (List Nat) → List (List Nat)
  | a :: b :: rest => Merkle.hashTwoHashes H a b :: Merkle.pairUp H rest
  | l => l

/-- The `loop` of `Tree::new`, building levels bottom-up until the current
front level has width 2, whose pair hash becomes the root.  The source loop
runs forever when the front width is 0 or 1 (unreachable from `Tree::new`,
which handles a single leaf separately and never shrinks a width ≥ 2 below
2); the recursion is driven by a fuel counter that the lemmas show is ample
for every reachable input, with the fuel-exhaustion and small-width branches
returning a junk tree in those unreachable cases. -/
def Merkle.Tree.buildLoop (H : List Nat → List Nat) :
    Nat → List (List (List Nat)) → Merkle.Tree
  | 0, lvls => ⟨[], lvls⟩
  | fuel + 1, lvls =>
    let cur := lvls.headD []
    if cur.length = 2 then
      ⟨Merkle.hashTwoHashes H (cur.getD 0 []) (cur.getD 1 []), lvls⟩
    else if cur.length < 2 then ⟨[], lvls⟩
    else Merkle.Tree.buildLoop H fuel (Merkle.pairUp H cur :: lvls)

/-- `Tree::new`: hash the leaves into the bottom level; a single leaf gives
an empty `levels` with `root = H(leaf)`; otherwise iterate `buildLoop`. -/
def Merkle.Tree.new (H : List Nat → List Nat) (leaves : List (List Nat)) :
    Merkle.Tree :=
  let bottom := leaves.map H
  if bottom.length = 1 then ⟨bottom.getD 0 [], []⟩
  else Merkle.Tree.buildLoop H bottom.length [bottom]

/-- `Tree::num_items`: 1 for the single-leaf tree, otherwise the width of the
bottom (last) level. -/
def Merkle.Tree.num_items (t : Merkle.Tree) : Nat :=
  if t.levels.length = 0 then 1 else (t.levels.getLastD []).length

/-- `Tree::commitment`. -/
def Merkle.Tree.commitment (t : Merkle.Tree) : Merkle.Commitment :=
  ⟨t.root, t.num_items⟩

/-- The verification loop of `Commitment::verify`, walking the frontier
bottom-up while tracking the running hash, the current index `p` and the
current width `w`.  The `RightChildWithSibling` arm computes
`current_index - 1` on a `u64`; underflow is a panic, modelled through
`checkedSub` (the parity guard in fact makes it unreachable). -/
def Merkle.Commitment.verifyGo (H : List Nat → List Nat) (root : List Nat)
    (h : List Nat) (p w : Nat) :
    List Merkle.ProofNode → Except Unit Bool
  | [] => .ok (decide (h = root))
  | node :: rest =>
    let odd := w % 2
    match node with
    | .nodeWithoutSibling =>
      if p ≠ w ∧ odd ≠ 1 then .ok false
      else Merkle.Commitment.verifyGo H root h (p / 2) (w / 2 + odd) rest
    | .leftChildWithSibling rightSibling =>
      if p % 2 ≠ 0 then .ok false
      else
        Merkle.Commitment.verifyGo H root
          (Merkle.hashTwoHashes H h rightSibling) (p / 2) (w / 2 + odd) rest
    | .rightChildWithSibling leftSibling =>
      if p % 2 ≠ 1 then .ok false
      else
        match checkedSub p 1 with
        | none => .error ()
        | some p1 =>
          Merkle.Commitment.verifyGo H root
            (Merkle.hashTwoHashes H leftSibling h) (p1 / 2) (w / 2 + odd) rest

/-- `Commitment::verify`: start from the hash of the claimed item at the
claimed index with width `num_items`, walk the frontier, and compare the
resulting hash with the root. -/
def Merkle.Commitment.verify (H : List Nat → List Nat)
    (c : Merkle.Commitment) (pf : Merkle.Proof) : Except Unit Bool :=
  Merkle.Commitment.verifyGo H c.root (H pf.item) pf.index c.num_items
    pf.frontier

/-- The frontier-emitting loop of `Tree::prove`; the first argument of the
recursion is `depth`, the body reads `levels[depth - 1]` and the sibling
accesses `levels[depth - 1][current + 1]` / `[current - 1]` are Vec indexing
whose out-of-bounds panic is the `.error ()` branch. -/
def Merkle.Tree.proveFrontier (H : List Nat → List Nat)
    (levels : List (List (List Nat))) :
    Nat → Nat → Nat → Except Unit (List Merkle.ProofNode)
  | 0, _, _ => .ok []
  | d + 1, width, current =>
    let odd := width % 2
    let step : Except Unit (Merkle.ProofNode × Nat) :=
      if current = width ∧ odd = 1 then
        .ok (.nodeWithoutSibling, width / 2)
      else if current % 2 = 0 then
        match (levels.getD d []).get? (current + 1) with
        | some s => .ok (.leftChildWithSibling s, current / 2)
        | none => .error ()
      else
        match (levels.getD d []).get? (current - 1) with
        | some s => .ok (.rightChildWithSibling s, (current - 1) / 2)
        | none => .error ()
    match step with
    | .error e => .error e
    | .ok (node, current2) =>
      if d = 0 then .ok [node]
      else
        match Merkle.Tree.proveFrontier H levels d (width / 2 + odd)
            current2 with
        | .error e => .error e
        | .ok rest => .ok (node :: rest)

/-- `Tree::prove`.  For the single-leaf tree (empty `levels`) the source
returns early for a bad index or a matching root, but when the root does not
match the item hash control falls through to `self.levels[depth - 1]` with
`depth == 0`, a `usize` underflow followed by out-of-bounds indexing: a
panic, modelled as `.error ()`.  Otherwise the leaf hash at `index` is
checked (a checked `get`, returning `None` for a bad index or item) and the
frontier loop runs from `depth = levels.len()`. -/
def Merkle.Tree.prove (H : List Nat → List Nat) (t : Merkle.Tree)
    (item : List Nat) (index : Nat) : Except Unit (Option Merkle.Proof) :=
  let depth := t.levels.length
  if depth = 0 then
    if index ≠ 0 then .ok none
    else if t.root = H item then .ok (some ⟨item, index, []⟩)
    else .error ()
  else
    match (t.levels.getD (depth - 1) []).get? index with
    | none => .ok none
    | some hsh =>
      if hsh ≠ H item then .ok none
      else
        match Merkle.Tree.proveFrontier H t.levels depth t.num_items index with
        | .error e => .error e
        | .ok fr => .ok (some ⟨item, index, fr⟩)

/-- `ProofDecodingError` from src/merkle/internal.rs. -/
inductive Merkle.ProofDecodingError where
  | NotEnoughInput : Nat → Merkle.ProofDecodingError
  | InvalidProofNodeType : Nat → Merkle.ProofDecodingError
deriving DecidableEq

/-- The `next_byte` closure of `Proof::try_from`: read one byte at position
`i`, failing with `NotEnoughInput(encoded.len())` past the end. -/
def Merkle.nextByte (encoded : List Nat) (i : Nat) :
    Except Merkle.ProofDecodingError (Nat × Nat) :=
  match encoded.get? i with
  | some b => .ok (b, i + 1)
  | none => .error (.NotEnoughInput encoded.length)

/-- The `next_n_bytes` closure: read `n` bytes in order. -/
def Merkle.nextNBytes (encoded : List Nat) (i : Nat) :
    Nat → Except Merkle.ProofDecodingError (List Nat × Nat)
  | 0 => .ok ([], i)
  | n + 1 =>
    match Merkle.nextByte encoded i with
    | .error e => .error e
    | .ok (b, i2) =>
      match Merkle.nextNBytes encoded i2 n with
      | .error e => .error e
      | .ok (v, i3) => .ok (b :: v, i3)

/-- The `next_u64` closure: read 8 bytes and convert big-endian. -/
def Merkle.nextU64 (encoded : List Nat) (i : Nat) :
    Except Merkle.ProofDecodingError (Nat × Nat) :=
  match Merkle.nextNBytes encoded i 8 with
  | .error e => .error e
  | .ok (bs, i2) => .ok (u64FromBeBytes bs, i2)

/-- The `next_hash` closure: read 32 bytes. -/
def Merkle.nextHash (encoded : List Nat) (i : Nat) :
    Except Merkle.ProofDecodingError (List Nat × Nat) :=
  Merkle.nextNBytes encoded i 32

/-- The `next_frontier_node` closure: a tag byte 0, 1 or 2, the latter two
followed by a 32-byte hash; any other tag is `InvalidProofNodeType`. -/
def Merkle.nextFrontierNode (encoded : List Nat) (i : Nat) :
    Except Merkle.ProofDecodingError (Merkle.ProofNode × Nat) :=
  match Merkle.nextByte encoded i with
  | .error e => .error e
  | .ok (tag, i2) =>
    match tag with
    | 0 => .ok (.nodeWithoutSibling, i2)
    | 1 =>
      match Merkle.nextHash encoded i2 with
      | .error e => .error e
      | .ok (h, i3) => .ok (.leftChildWithSibling h, i3)
    | 2 =>
      match Merkle.nextHash encoded i2 with
      | .error e => .error e
      | .ok (h, i3) => .ok (.rightChildWithSibling h, i3)
    | b => .error (.InvalidProofNodeType b)

/-- The frontier-reading loop of `Proof::try_from`. -/
def Merkle.nextFrontier (encoded : List Nat) (i : Nat) :
    Nat → Except Merkle.ProofDecodingError (List Merkle.ProofNode × Nat)
  | 0 => .ok ([], i)
  | n + 1 =>
    match Merkle.nextFrontierNode encoded i with
    | .error e => .error e
    | .ok (node, i2) =>
      match Merkle.nextFrontier encoded i2 n with
      | .error e => .error e
      | .ok (v, i3) => .ok (node :: v, i3)

/-- `Proof::try_from(&[u8])`: a guard for fewer than 8 bytes, then the item
length, the item, the index, the frontier length and the frontier nodes read
sequentially; trailing bytes are never examined. -/
def Merkle.Proof.tryFrom (encoded : List Nat) :
    Except Merkle.ProofDecodingError Merkle.Proof :=
  if encoded.length < 8 then .error (.NotEnoughInput encoded.length)
  else
    match Merkle.nextU64 encoded 0 with
    | .error e => .error e
    | .ok (len1, i1) =>
      match Merkle.nextNBytes encoded i1 len1 with
      | .error e => .error e
      | .ok (item, i2) =>
        match Merkle.nextU64 encoded i2 with
        | .error e => .error e
        | .ok (index, i3) =>
          match Merkle.nextU64 encoded i3 with
          | .error e => .error e
          | .ok (len2, i4) =>
            match Merkle.nextFrontier encoded i4 len2 with
            | .error e => .error e
            | .ok (frontier, _) => .ok ⟨item, index, frontier⟩

/-- `encode_proof_node` inside `From<&Proof> for Vec<u8>`: tag byte then the
32 hash bytes for the two sibling-carrying variants. -/
def Merkle.ProofNode.encodeNode : Merkle.ProofNode → List Nat
  | .nodeWithoutSibling => [0]
  | .leftChildWithSibling h => 1 :: h
  | .rightChildWithSibling h => 2 :: h

/-- `From<&Proof> for Vec<u8>`: item length, item, index, frontier length,
encoded frontier nodes. -/
def Merkle.Proof.encode (pf : Merkle.Proof) : List Nat :=
  beBytesU64 pf.item.length ++ pf.item ++ beBytesU64 pf.index ++
    beBytesU64 pf.frontier.length ++
    (pf.frontier.map Merkle.ProofNode.encodeNode).flatten

/-- Hash payload shape of a proof node (32 bytes in the source types). -/
def Merkle.ProofNode.hashOk : Merkle.ProofNode → Prop
  | .nodeWithoutSibling => True
  | .leftChildWithSibling h => h.length = 32
  | .rightChildWithSibling h => h.length = 32

instance (nd : Merkle.ProofNode) : Decidable nd.hashOk := by
  cases nd <;> simp [Merkle.ProofNode.hashOk] <;> infer_instance

/-- In-range proof: the `u64` fields fit and every frontier hash has 32
bytes, as the source types guarantee. -/
def Merkle.Proof.InRange (p : Merkle.Proof) : Prop :=
  p.item.length < 2 ^ 64 ∧ p.index < 2 ^ 64 ∧ p.frontier.length < 2 ^ 64 ∧
    ∀ nd ∈ p.frontier, nd.hashOk

instance (p : Merkle.Proof) : Decidable p.InRange := by
  unfold Merkle.Proof.InRange; infer_instance

/-! ## src/merkle.rs -/

/-- Many-time public key: a newtype over the tree commitment. -/
structure Merkle.PublicKey where
  commitment : Merkle.Commitment
deriving DecidableEq

/-- Many-time private key: the Lamport secrets, the Merkle tree over their
encoded public keys, and the `current_index` counter (`usize`). -/
structure Merkle.PrivateKey where
  private_keys : List Lamport.PrivateKey
  tree : Merkle.Tree
  current_index : Nat
deriving DecidableEq

/-- Many-time signature: Lamport signature, Lamport public key, Merkle
proof. -/
structure Merkle.Signature where
  lamport_sig : Lamport.Signature
  lamport_pub : Lamport.PublicKey
  proof : Merkle.Proof
deriving DecidableEq

/-- `SignatureDecodingError` from src/merkle.rs. -/
inductive Merkle.SignatureDecodingError where
  | NotEnoughInput : Nat → Merkle.SignatureDecodingError
  | MerkleProofDecodingError :
      Merkle.ProofDecodingError → Merkle.SignatureDecodingError
deriving DecidableEq

/-- `From<(Vec<lamport::PrivateKey>, usize)> for PrivateKey`: build the tree
over the canonical encodings of the derived Lamport public keys.
`PrivateKey::generate(n)` draws `n` fresh Lamport secrets from the OS RNG and
applies this conversion with counter 0; randomness is injected here as the
list of drawn secrets. -/
def Merkle.PrivateKey.fromParts (H : List Nat → List Nat)
    (private_keys : List Lamport.PrivateKey) (current_index : Nat) :
    Merkle.PrivateKey :=
  let encoded := private_keys.map fun k => (k.public_key H).to_bytes
  ⟨private_keys, Merkle.Tree.new H encoded, current_index⟩

/-- `PrivateKey::public_key`. -/
def Merkle.PrivateKey.public_key (k : Merkle.PrivateKey) : Merkle.PublicKey :=
  ⟨k.tree.commitment⟩

/-- `PrivateKey::sign(&mut self, ..)`.  The body reads `self.2`, guards
`index >= self.0.len()`, proves membership of the encoded Lamport public key
and packages the signature; no statement in the source assigns to any field
of `self`, so the state handed back is the input state. -/
def Merkle.PrivateKey.sign (H : List Nat → List Nat)
    (k : Merkle.PrivateKey) (message : List Nat) :
    Except Unit (Option Merkle.Signature) × Merkle.PrivateKey :=
  let index := k.current_index
  if index ≥ k.private_keys.length then (.ok none, k)
  else
    let lamportPrivateKey := k.private_keys.getD index ⟨[], []⟩
    let lamportPublicKey := lamportPrivateKey.public_key H
    match Merkle.Tree.prove H k.tree lamportPublicKey.to_bytes index with
    | .error e => (.error e, k)
    | .ok none => (.ok none, k)
    | .ok (some pf) =>
      (.ok (some ⟨lamportPrivateKey.sign H message, lamportPublicKey, pf⟩), k)

/-- Iterated signing: fold `sign` over a list of messages, threading the
(returned) key state. -/
def Merkle.signState (H : List Nat → List Nat) (k : Merkle.PrivateKey)
    (messages : List (List Nat)) : Merkle.PrivateKey :=
  messages.foldl (fun st m => (Merkle.PrivateKey.sign H st m).2) k

/-- `PublicKey::verify` (many-time): the Merkle check of the embedded proof
conjoined with the Lamport check of the embedded public key; a panic inside
the Merkle check propagates. -/
def Merkle.PublicKey.verify (H : List Nat → List Nat)
    (pk : Merkle.PublicKey) (message : List Nat) (s : Merkle.Signature) :
    Except Unit Bool :=
  match pk.commitment.verify H s.proof with
  | .error e => .error e
  | .ok b => .ok (b && s.lamport_pub.verify H message s.lamport_sig)

/-- `From<&Signature> for Vec<u8>`: 8192 Lamport signature bytes, 16384
Lamport public key bytes, then the proof encoding. -/
def Merkle.Signature.encode (s : Merkle.Signature) : List Nat :=
  s.lamport_sig.toBytes ++ s.lamport_pub.to_bytes ++ s.proof.encode

/-- `TryFrom<&[u8]> for Signature`: the source reads 8192 + 16384 bytes one
at a time (any shortage is `NotEnoughInput(len)`) and hands the remaining
slice to `Proof::try_from`. -/
def Merkle.Signature.tryFrom (bytes : List Nat) :
    Except Merkle.SignatureDecodingError Merkle.Signature :=
  if bytes.length < 24576 then .error (.NotEnoughInput bytes.length)
  else
    match Merkle.Proof.tryFrom (bytes.drop 24576) with
    | .error e => .error (.MerkleProofDecodingError e)
    | .ok pf =>
      .ok ⟨Lamport.Signature.fromBytes (bytes.take 8192),
           Lamport.PublicKey.fromBytes ((bytes.drop 8192).take 16384), pf⟩

/-- In-range many-time signature. -/
def Merkle.Signature.InRange (s : Merkle.Signature) : Prop :=
  s.lamport_sig.InRange ∧ s.lamport_pub.InRange ∧ s.proof.InRange

instance (s : Merkle.Signature) : Decidable s.InRange := by
  unfold Merkle.Signature.InRange; infer_instance

/-- `From<PublicKey> for [u8; 40]`: 32 root bytes then 8 big-endian count
bytes. -/
def Merkle.PublicKey.toBytes (pk : Merkle.PublicKey) : List Nat :=
  pk.commitment.root ++ beBytesU64 pk.commitment.num_items

/-- `From<[u8; 40]> for PublicKey`. -/
def Merkle.PublicKey.fromBytes (value : List Nat) : Merkle.PublicKey :=
  ⟨⟨value.take 32, u64FromBeBytes ((value.drop 32).take 8)⟩⟩

/-- In-range many-time public key: 32-byte root, `u64` count. -/
def Merkle.PublicKey.InRange (pk : Merkle.PublicKey) : Prop :=
  pk.commitment.root.length = 32 ∧ pk.commitment.num_items < 2 ^ 64

instance (pk : Merkle.PublicKey) : Decidable pk.InRange := by
  unfold Merkle.PublicKey.InRange; infer_instance

/-! ## Concrete material for evaluations

`hC` is an executable stand-in for the opaque digest function used when a
claim is settled on a concrete input. -/

/-- Concrete stand-in hash: input length and head byte. -/
def hC : List Nat → List Nat := fun l => [l.length % 256, l.headD 0]

/-- Concrete Lamport key A (zeros and ones). -/
def lamportKeyA : Lamport.PrivateKey :=
  ⟨List.replicate 256 (List.replicate 32 0),
   List.replicate 256 (List.replicate 32 1)⟩

/-- Concrete Lamport key B (twos and threes), distinct from key A. -/
def lamportKeyB : Lamport.PrivateKey :=
  ⟨List.replicate 256 (List.replicate 32 2),
   List.replicate 256 (List.replicate 32 3)⟩

/-- Capacity-1 many-time key over key A with counter 0, the state produced by
`PrivateKey::generate(1)` when the RNG draws key A. -/
def keyA1 : Merkle.PrivateKey := Merkle.PrivateKey.fromParts hC [lamportKeyA] 0

/-! ## Helper lemmas -/

theorem beBytesU64_length (n : Nat) : (beBytesU64 n).length = 8 := by
  simp [beBytesU64]

theorem u64FromBeBytes_beBytesU64 (n : Nat) (hn : n < 2 ^ 64) :
    u64FromBeBytes (beBytesU64 n) = n := by
  simp [u64FromBeBytes, beBytesU64, List.foldl]
  omega

theorem foldl_and_decide {α : Type} (p : α → Bool) :
    ∀ (l : List α) (b : Bool),
      l.foldl (fun acc x => acc && p x) b = (b && l.all p)
  | [], b => by simp
  | x :: t, b => by
    simp [List.foldl, List.all_cons, foldl_and_decide p t, Bool.and_assoc]

theorem all_map_general {α β : Type} (f : α → β) (p : β → Bool) :
    ∀ l : List α, (l.map f).all p = l.all (fun x => p (f x))
  | [] => by simp
  | x :: t => by simp [List.all_cons, all_map_general f p t]

theorem enum_map_range {α : Type} (n : Nat) (f : Nat → α) :
    ((List.range n).map f).enum = (List.range n).map fun i => (i, f i) := by
  rw [List.enum_eq_zip_range]
  rw [List.length_map, List.length_range]
  have h1 : (List.range n).zip ((List.range n).map f)
      = ((List.range n).map id).zip ((List.range n).map f) := by
    rw [List.map_id]
  rw [h1, List.zip_map']
  simp [id]

theorem getD_map_lt {α β : Type} (f : α → β) (l : List α) (i : Nat)
    (d : α) (d2 : β) (h : i < l.length) :
    (l.map f).getD i d2 = f (l.getD i d) := by
  have h2 : l[i]? = some (l.get ⟨i, h⟩) := by
    rw [List.getElem?_eq_getElem h]
    simp [List.get_eq_getElem]
  simp [List.getD, List.getElem?_map, h2]

/-- Lamport signing round trip: the revealed chunk on each side is exactly
the preimage of the committed hash selected by the same digest bit. -/
theorem Lamport.verify_sign_self (H : List Nat → List Nat)
    (k : Lamport.PrivateKey) (m : List Nat)
    (h1 : k.left.length = 256) (h2 : k.right.length = 256) :
    Lamport.PublicKey.verify H (k.public_key H) m (k.sign H m) = true := by
  unfold Lamport.PublicKey.verify Lamport.PrivateKey.sign
    Lamport.PrivateKey.public_key
  rw [foldl_and_decide, Bool.true_and, enum_map_range, all_map_general,
    List.all_eq_true]
  intro i hi
  rw [List.mem_range] at hi
  by_cases hb : bitOfByteslice i (H m)
  · simp only [hb, if_true, decide_eq_true_eq]
    rw [getD_map_lt H k.left i [] [] (by omega)]
  · simp only [hb, if_false, Bool.false_eq_true, decide_eq_true_eq]
    rw [getD_map_lt H k.right i [] [] (by omega)]

/-! ## Decoder specification lemmas (position based) -/

theorem Merkle.nextByte_spec (full : List Nat) (pos : Nat) (x : Nat)
    (rest : List Nat) (h : full.drop pos = x :: rest) :
    Merkle.nextByte full pos = .ok (x, pos + 1) := by
  have h0 : full[pos]? = some x := by
    have h1 : (full.drop pos)[0]? = some x := by rw [h]; simp
    rw [List.getElem?_drop] at h1
    simpa using h1
  simp [Merkle.nextByte, List.get?_eq_getElem?, h0]

theorem drop_succ_of_drop_cons (full : List Nat) (pos : Nat) (x : Nat)
    (rest : List Nat) (h : full.drop pos = x :: rest) :
    full.drop (pos + 1) = rest := by
  have h1 : full.drop (pos + 1) = (full.drop pos).drop 1 := by
    rw [List.drop_drop]
  rw [h1, h]
  simp

theorem drop_add_of_drop_append (full pre rest : List Nat) (pos : Nat)
    (h : full.drop pos = pre ++ rest) :
    full.drop (pos + pre.length) = rest := by
  have h1 : full.drop (pos + pre.length) = (full.drop pos).drop pre.length := by
    rw [List.drop_drop]
  rw [h1, h, List.drop_left' rfl]

theorem Merkle.nextNBytes_spec (mid : List Nat) :
    ∀ (full rest : List Nat) (pos : Nat), full.drop pos = mid ++ rest →
      Merkle.nextNBytes full pos mid.length = .ok (mid, pos + mid.length) := by
  induction mid with
  | nil =>
    intro full rest pos h
    simp [Merkle.nextNBytes]
  | cons x t ih =>
    intro full rest pos h
    have hb := Merkle.nextByte_spec full pos x (t ++ rest) (by simpa using h)
    have hd := drop_succ_of_drop_cons full pos x (t ++ rest) (by simpa using h)
    have hih := ih full rest (pos + 1) hd
    simp only [List.length_cons, Merkle.nextNBytes, hb, hih]
    rw [show pos + 1 + t.length = pos + (t.length + 1) by omega]

theorem Merkle.nextU64_spec (full rest : List Nat) (pos n : Nat)
    (hn : n < 2 ^ 64) (h : full.drop pos = beBytesU64 n ++ rest) :
    Merkle.nextU64 full pos = .ok (n, pos + 8) := by
  have h8 : (beBytesU64 n).length = 8 := beBytesU64_length n
  have hb := Merkle.nextNBytes_spec (beBytesU64 n) full rest pos h
  rw [h8] at hb
  simp [Merkle.nextU64, hb, u64FromBeBytes_beBytesU64 n hn]

theorem Merkle.nextHash_spec (full rest hsh : List Nat) (pos : Nat)
    (hl : hsh.length = 32) (h : full.drop pos = hsh ++ rest) :
    Merkle.nextHash full pos = .ok (hsh, pos + 32) := by
  have hb := Merkle.nextNBytes_spec hsh full rest pos h
  rw [hl] at hb
  simp [Merkle.nextHash, hb]

theorem Merkle.nextFrontierNode_spec (full rest : List Nat) (pos : Nat)
    (nd : Merkle.ProofNode) (hk : nd.hashOk)
    (h : full.drop pos = nd.encodeNode ++ rest) :
    Merkle.nextFrontierNode full pos = .ok (nd, pos + nd.encodeNode.length) := by
  cases nd with
  | nodeWithoutSibling =>
    have hb := Merkle.nextByte_spec full pos 0 rest
      (by simpa [Merkle.ProofNode.encodeNode] using h)
    simp [Merkle.nextFrontierNode, hb, Merkle.ProofNode.encodeNode]
  | leftChildWithSibling hs =>
    have h32 : hs.length = 32 := hk
    have hb := Merkle.nextByte_spec full pos 1 (hs ++ rest)
      (by simpa [Merkle.ProofNode.encodeNode] using h)
    have hd := drop_succ_of_drop_cons full pos 1 (hs ++ rest)
      (by simpa [Merkle.ProofNode.encodeNode] using h)
    have hh := Merkle.nextHash_spec full rest hs (pos + 1) h32 hd
    simp only [Merkle.nextFrontierNode, hb, hh, Merkle.ProofNode.encodeNode,
      List.length_cons, h32]
  | rightChildWithSibling hs =>
    have h32 : hs.length = 32 := hk
    have hb := Merkle.nextByte_spec full pos 2 (hs ++ rest)
      (by simpa [Merkle.ProofNode.encodeNode] using h)
    have hd := drop_succ_of_drop_cons full pos 2 (hs ++ rest)
      (by simpa [Merkle.ProofNode.encodeNode] using h)
    have hh := Merkle.nextHash_spec full rest hs (pos + 1) h32 hd
    simp only [Merkle.nextFrontierNode, hb, hh, Merkle.ProofNode.encodeNode,
      List.length_cons, h32]

theorem Merkle.nextFrontier_spec (fr : List Merkle.ProofNode) :
    ∀ (full rest : List Nat) (pos : Nat),
      (∀ nd ∈ fr, nd.hashOk) →
      full.drop pos = (fr.map Merkle.ProofNode.encodeNode).flatten ++ rest →
      Merkle.nextFrontier full pos fr.length
        = .ok (fr, pos + (fr.map Merkle.ProofNode.encodeNode).flatten.length) := by
  induction fr with
  | nil =>
    intro full rest pos hall h
    simp [Merkle.nextFrontier]
  | cons nd t ih =>
    intro full rest pos hall h
    have hshape : full.drop pos
        = nd.encodeNode
          ++ ((t.map Merkle.ProofNode.encodeNode).flatten ++ rest) := by
      simpa [List.append_assoc] using h
    have hb := Merkle.nextFrontierNode_spec full
      ((t.map Merkle.ProofNode.encodeNode).flatten ++ rest) pos nd
      (hall nd (by simp)) hshape
    have hd := drop_add_of_drop_append full nd.encodeNode
      ((t.map Merkle.ProofNode.encodeNode).flatten ++ rest) pos hshape
    have hih := ih full rest (pos + nd.encodeNode.length)
      (fun x hx => hall x (by simp [hx])) hd
    simp only [List.length_cons, Merkle.nextFrontier, hb, hih,
      List.map_cons, List.flatten_cons, List.length_append]
    rw [show pos + nd.encodeNode.length
        + (t.map Merkle.ProofNode.encodeNode).flatten.length
        = pos + (nd.encodeNode.length
          + (t.map Merkle.ProofNode.encodeNode).flatten.length) by omega]

/-! ## Codec round-trip lemmas -/

theorem chunk32_flatten :
    ∀ (cs : List (List Nat)), (∀ c ∈ cs, c.length = 32) →
      chunk32 cs.flatten = cs := by
  intro cs
  induction cs with
  | nil => intro hall; simp [chunk32]
  | cons c t ih =>
    intro hall
    have hc : c.length = 32 := hall c (by simp)
    have hne : c ++ t.flatten ≠ [] := by
      intro hcontra
      have : c = [] := by
        cases c with
        | nil => rfl
        | cons a b => simp at hcontra
      rw [this] at hc
      simp at hc
    obtain ⟨a, b, hab⟩ : ∃ a b, c ++ t.flatten = a :: b := by
      cases hx : c ++ t.flatten with
      | nil => exact absurd hx hne
      | cons a b => exact ⟨a, b, rfl⟩
    rw [List.flatten_cons, hab]
    rw [chunk32]
    rw [← hab, List.take_left' hc, List.drop_left' hc]
    rw [ih (fun x hx => hall x (by simp [hx]))]

theorem flatten_length_32 :
    ∀ (cs : List (List Nat)), (∀ c ∈ cs, c.length = 32) →
      cs.flatten.length = 32 * cs.length := by
  intro cs
  induction cs with
  | nil => intro hall; simp
  | cons c t ih =>
    intro hall
    rw [List.flatten_cons, List.length_append, hall c (by simp),
      ih (fun x hx => hall x (by simp [hx]))]
    simp
    omega

/-- Decoding an encoded in-range proof, with arbitrary trailing bytes,
recovers the proof: the decoder reads exactly the declared lengths and never
examines the rest of the input. -/
theorem Merkle.proof_decode_encode_append (p : Merkle.Proof)
    (hp : p.InRange) (s : List Nat) :
    Merkle.Proof.tryFrom (p.encode ++ s) = .ok p := by
  obtain ⟨h1, h2, h3, h4⟩ := hp
  set full := p.encode ++ s with hfull
  have hlen : ¬ full.length < 8 := by
    rw [hfull]
    simp [Merkle.Proof.encode, List.length_append, beBytesU64_length]
  have hd0 : full.drop 0 = beBytesU64 p.item.length
      ++ (p.item ++ (beBytesU64 p.index ++ (beBytesU64 p.frontier.length
        ++ ((p.frontier.map Merkle.ProofNode.encodeNode).flatten ++ s)))) := by
    rw [hfull]
    simp [Merkle.Proof.encode, List.append_assoc]
  have hu1 := Merkle.nextU64_spec full _ 0 p.item.length h1 hd0
  have hd1 : full.drop (0 + 8) = p.item
      ++ (beBytesU64 p.index ++ (beBytesU64 p.frontier.length
        ++ ((p.frontier.map Merkle.ProofNode.encodeNode).flatten ++ s))) := by
    have := drop_add_of_drop_append full (beBytesU64 p.item.length) _ 0 hd0
    rwa [beBytesU64_length] at this
  have hn1 := Merkle.nextNBytes_spec p.item full _ (0 + 8) hd1
  have hd2 : full.drop (0 + 8 + p.item.length) = beBytesU64 p.index
      ++ (beBytesU64 p.frontier.length
        ++ ((p.frontier.map Merkle.ProofNode.encodeNode).flatten ++ s)) :=
    drop_add_of_drop_append full p.item _ (0 + 8) hd1
  have hu2 := Merkle.nextU64_spec full _ (0 + 8 + p.item.length) p.index h2 hd2
  have hd3 : full.drop (0 + 8 + p.item.length + 8)
      = beBytesU64 p.frontier.length
        ++ ((p.frontier.map Merkle.ProofNode.encodeNode).flatten ++ s) := by
    have := drop_add_of_drop_append full (beBytesU64 p.index) _
      (0 + 8 + p.item.length) hd2
    rwa [beBytesU64_length] at this
  have hu3 := Merkle.nextU64_spec full _ (0 + 8 + p.item.length + 8)
    p.frontier.length h3 hd3
  have hd4 : full.drop (0 + 8 + p.item.length + 8 + 8)
      = (p.frontier.map Merkle.ProofNode.encodeNode).flatten ++ s := by
    have := drop_add_of_drop_append full (beBytesU64 p.frontier.length) _
      (0 + 8 + p.item.length + 8) hd3
    rwa [beBytesU64_length] at this
  have hf := Merkle.nextFrontier_spec p.frontier full s
    (0 + 8 + p.item.length + 8 + 8) h4 hd4
  simp only [Merkle.Proof.tryFrom, hlen, if_false, hu1, hn1, hu2, hu3, hf]

theorem Merkle.publicKeyBytes_round_trip (pk : Merkle.PublicKey)
    (hpk : pk.InRange) : Merkle.PublicKey.fromBytes pk.toBytes = pk := by
  obtain ⟨h1, h2⟩ := hpk
  unfold Merkle.PublicKey.fromBytes Merkle.PublicKey.toBytes
  rw [List.take_left' h1, List.drop_left' h1]
  have h8 : List.take 8 (beBytesU64 pk.commitment.num_items)
      = beBytesU64 pk.commitment.num_items := by
    rw [← beBytesU64_length pk.commitment.num_items, List.take_length]
  rw [h8, u64FromBeBytes_beBytesU64 pk.commitment.num_items h2]

theorem Lamport.privateKeyBytes_round_trip (k : Lamport.PrivateKey)
    (hk : k.InRange) : Lamport.PrivateKey.fromBytes k.toBytes = k := by
  obtain ⟨h1, h2, h3, h4⟩ := hk
  have hl : k.left.flatten.length = 8192 := by
    rw [flatten_length_32 k.left h3, h1]
  unfold Lamport.PrivateKey.fromBytes Lamport.PrivateKey.toBytes
  rw [List.take_left' hl, List.drop_left' hl]
  have hr : k.right.flatten.length = 8192 := by
    rw [flatten_length_32 k.right h4, h2]
  rw [← hr, List.take_length]
  rw [chunk32_flatten k.left h3, chunk32_flatten k.right h4]

theorem Lamport.publicKeyBytes16384_round_trip (pb : Lamport.PublicKey)
    (hpb : pb.InRange) : Lamport.PublicKey.fromBytes pb.to_bytes = pb := by
  obtain ⟨h1, h2, h3, h4⟩ := hpb
  have hl : pb.left_hashes.flatten.length = 8192 := by
    rw [flatten_length_32 pb.left_hashes h3, h1]
  have hr : pb.right_hashes.flatten.length = 8192 := by
    rw [flatten_length_32 pb.right_hashes h4, h2]
  unfold Lamport.PublicKey.fromBytes Lamport.PublicKey.to_bytes
  rw [List.take_left' hl, List.drop_left' hl, ← hr, List.take_length]
  rw [chunk32_flatten pb.left_hashes h3, chunk32_flatten pb.right_hashes h4]

theorem Lamport.signatureBytes_round_trip (sg : Lamport.Signature)
    (hs : sg.InRange) : Lamport.Signature.fromBytes sg.toBytes = sg := by
  obtain ⟨h1, h2⟩ := hs
  unfold Lamport.Signature.fromBytes Lamport.Signature.toBytes
  rw [chunk32_flatten sg.exposed h2]

/-- Decoding an encoded in-range many-time signature, with arbitrary trailing
bytes, recovers the signature. -/
theorem Merkle.signature_decode_encode_append (sg : Merkle.Signature)
    (hsg : sg.InRange) (s : List Nat) :
    Merkle.Signature.tryFrom (sg.encode ++ s) = .ok sg := by
  obtain ⟨⟨hs1, hs2⟩, hpb, hpf⟩ := hsg
  have hsl : sg.lamport_sig.toBytes.length = 8192 := by
    unfold Lamport.Signature.toBytes
    rw [flatten_length_32 sg.lamport_sig.exposed hs2, hs1]
  have hpl : sg.lamport_pub.to_bytes.length = 16384 := by
    obtain ⟨hp1, hp2, hp3, hp4⟩ := hpb
    unfold Lamport.PublicKey.to_bytes
    rw [List.length_append, flatten_length_32 sg.lamport_pub.left_hashes hp3,
      flatten_length_32 sg.lamport_pub.right_hashes hp4, hp1, hp2]
  set full := sg.encode ++ s with hfull
  have hshape : full = sg.lamport_sig.toBytes
      ++ (sg.lamport_pub.to_bytes ++ (sg.proof.encode ++ s)) := by
    rw [hfull]
    simp [Merkle.Signature.encode, List.append_assoc]
  have hlen : ¬ full.length < 24576 := by
    rw [hshape]
    simp [List.length_append, hsl, hpl]
    omega
  have htake : full.take 8192 = sg.lamport_sig.toBytes := by
    rw [hshape, List.take_left' hsl]
  have hdrop1 : full.drop 8192
      = sg.lamport_pub.to_bytes ++ (sg.proof.encode ++ s) := by
    rw [hshape, List.drop_left' hsl]
  have htake2 : (full.drop 8192).take 16384 = sg.lamport_pub.to_bytes := by
    rw [hdrop1, List.take_left' hpl]
  have hdrop2 : full.drop 24576 = sg.proof.encode ++ s := by
    have h1 : full.drop 24576 = (full.drop 8192).drop 16384 := by
      rw [List.drop_drop]
    rw [h1, hdrop1, List.drop_left' hpl]
  have hproof := Merkle.proof_decode_encode_append sg.proof hpf s
  simp only [Merkle.Signature.tryFrom, hlen, if_false, hdrop2, hproof,
    htake, htake2]
  rw [Lamport.signatureBytes_round_trip sg.lamport_sig ⟨hs1, hs2⟩,
    Lamport.publicKeyBytes16384_round_trip sg.lamport_pub hpb]

/-! ## Merkle tree structure lemmas -/

theorem Merkle.pairUp_length (H : List Nat → List Nat) :
    ∀ l : List (List Nat), (Merkle.pairUp H l).length = (l.length + 1) / 2
  | [] => by simp [Merkle.pairUp]
  | [x] => by simp [Merkle.pairUp]
  | a :: b :: rest => by
    simp [Merkle.pairUp, Merkle.pairUp_length H rest]
    omega

/-- The stack of levels produced by the build loop: each level is the pairing
of the one below it (the head is the top). -/
inductive Merkle.Chained (H : List Nat → List Nat) :
    List (List (List Nat)) → Prop where
  | nil : Merkle.Chained H []
  | single (l : List (List Nat)) : Merkle.Chained H [l]
  | cons (a b : List (List Nat)) (rest : List (List (List Nat))) :
      a = Merkle.pairUp H b → Merkle.Chained H (b :: rest) →
      Merkle.Chained H (a :: b :: rest)

theorem Merkle.Chained.getD_rel {H : List Nat → List Nat}
    {ls : List (List (List Nat))} (hch : Merkle.Chained H ls) :
    ∀ i, i + 1 < ls.length →
      ls.getD i [] = Merkle.pairUp H (ls.getD (i + 1) []) := by
  induction hch with
  | nil => intro i hi; simp at hi
  | single l => intro i hi; simp at hi
  | cons a b rest hab hch ih =>
    intro i hi
    cases i with
    | zero => simpa using hab
    | succ j =>
      have hj : j + 1 < (b :: rest).length := by
        simp at hi
        simp
        omega
      simpa using ih j hj

theorem headD_eq_getD_zero {α : Type} (l : List α) (d : α) :
    l.headD d = l.getD 0 d := by
  cases l <;> rfl

theorem getD_append_last {α : Type} (pre : List α) (x : α) (d : α) :
    (pre ++ [x]).getD pre.length d = x := by
  induction pre with
  | nil => rfl
  | cons a t ih => simp [ih]

theorem getLastD_append_single {α : Type} (pre : List α) (x : α) (d : α) :
    (pre ++ [x]).getLastD d = x := by
  rw [List.getLastD_eq_getLast?, List.getLast?_append]
  rfl

theorem getD_mem {α : Type} (l : List α) (i : Nat) (d : α)
    (h : i < l.length) : l.getD i d ∈ l := by
  rw [List.getD_eq_getElem l d h]
  exact List.getElem_mem h

theorem Merkle.pairUp_getD_zero (H : List Nat → List Nat)
    (l : List (List Nat)) (h : 2 ≤ l.length) :
    (Merkle.pairUp H l).getD 0 []
      = Merkle.hashTwoHashes H (l.getD 0 []) (l.getD 1 []) := by
  match l, h with
  | a :: b :: rest, _ => simp [Merkle.pairUp]

theorem Merkle.buildLoop_spec (H : List Nat → List Nat) :
    ∀ (fuel : Nat) (lvls : List (List (List Nat))),
      lvls ≠ [] →
      2 ≤ (lvls.headD []).length →
      (lvls.headD []).length ≤ fuel →
      Merkle.Chained H lvls →
      (∀ l ∈ lvls, 2 ≤ l.length) →
      (∃ pre, (Merkle.Tree.buildLoop H fuel lvls).levels = pre ++ lvls) ∧
      Merkle.Chained H (Merkle.Tree.buildLoop H fuel lvls).levels ∧
      (∀ l ∈ (Merkle.Tree.buildLoop H fuel lvls).levels, 2 ≤ l.length) ∧
      (Merkle.Tree.buildLoop H fuel lvls).levels ≠ [] ∧
      ((Merkle.Tree.buildLoop H fuel lvls).levels.headD []).length = 2 ∧
      (Merkle.Tree.buildLoop H fuel lvls).root
        = Merkle.hashTwoHashes H
          (((Merkle.Tree.buildLoop H fuel lvls).levels.headD []).getD 0 [])
          (((Merkle.Tree.buildLoop H fuel lvls).levels.headD []).getD 1 []) := by
  intro fuel
  induction fuel with
  | zero =>
    intro lvls hne h2 hf hch hall
    omega
  | succ fuel ih =>
    intro lvls hne h2 hf hch hall
    by_cases hlen2 : (lvls.headD []).length = 2
    · have hstep : Merkle.Tree.buildLoop H (fuel + 1) lvls
          = ⟨Merkle.hashTwoHashes H ((lvls.headD []).getD 0 [])
              ((lvls.headD []).getD 1 []), lvls⟩ := by
        simp only [Merkle.Tree.buildLoop]
        rw [if_pos hlen2]
      rw [hstep]
      exact ⟨⟨[], rfl⟩, hch, hall, hne, hlen2, rfl⟩
    · have h3 : 3 ≤ (lvls.headD []).length := by omega
      have hlt : ¬ (lvls.headD []).length < 2 := by omega
      have hstep : Merkle.Tree.buildLoop H (fuel + 1) lvls
          = Merkle.Tree.buildLoop H fuel
              (Merkle.pairUp H (lvls.headD []) :: lvls) := by
        simp only [Merkle.Tree.buildLoop]
        rw [if_neg hlen2, if_neg hlt]
      obtain ⟨cur, rest, rfl⟩ : ∃ cur rest, lvls = cur :: rest := by
        cases lvls with
        | nil => exact absurd rfl hne
        | cons cur rest => exact ⟨cur, rest, rfl⟩
      have hplen : (Merkle.pairUp H cur).length = (cur.length + 1) / 2 :=
        Merkle.pairUp_length H cur
      have hcur : (cur :: rest).headD ([] : List (List Nat)) = cur := rfl
      rw [hcur] at h2 h3 hf hlen2 hlt hstep
      have hch2 : Merkle.Chained H (Merkle.pairUp H cur :: cur :: rest) :=
        Merkle.Chained.cons _ cur rest rfl hch
      have hall2 : ∀ l ∈ Merkle.pairUp H cur :: cur :: rest, 2 ≤ l.length := by
        intro l hl
        rcases List.mem_cons.mp hl with h | h
        · rw [h, hplen]; omega
        · exact hall l h
      have hih := ih (Merkle.pairUp H cur :: cur :: rest) (by simp)
        (by simp [hplen]; omega) (by simp [hplen]; omega) hch2 hall2
      rw [hstep]
      obtain ⟨⟨pre, hpre⟩, c2, c3, c4, c5, c6⟩ := hih
      refine ⟨⟨pre ++ [Merkle.pairUp H cur], ?_⟩, c2, c3, c4, c5, c6⟩
      rw [hpre]
      simp

theorem Merkle.proveFrontier_spec (H : List Nat → List Nat) :
    ∀ (d : Nat) (ls : List (List (List Nat))),
      Merkle.Chained H ls → (∀ l ∈ ls, 2 ≤ l.length) →
      1 ≤ d → d ≤ ls.length →
      ∃ fr,
        Merkle.Tree.proveFrontier H ls d ((ls.getD (d - 1) []).length) 0
            = .ok fr ∧
        ∀ root, Merkle.Commitment.verifyGo H root
            ((ls.getD (d - 1) []).getD 0 []) 0 ((ls.getD (d - 1) []).length) fr
          = .ok (decide (Merkle.hashTwoHashes H ((ls.getD 0 []).getD 0 [])
              ((ls.getD 0 []).getD 1 []) = root)) := by
  intro d
  induction d with
  | zero =>
    intro ls hch hall h1 hd
    omega
  | succ d ih =>
    intro ls hch hall h1 hd
    simp only [Nat.add_sub_cancel]
    have hdlt : d < ls.length := by omega
    have hmem : ls.getD d [] ∈ ls := getD_mem ls d [] hdlt
    have hw2 : 2 ≤ (ls.getD d []).length := hall _ hmem
    have h1lt : 1 < (ls.getD d []).length := by omega
    have hget : (ls.getD d []).get? 1 = some ((ls.getD d []).getD 1 []) := by
      rw [List.getD_eq_getElem _ _ h1lt, List.get?_eq_getElem?,
        List.getElem?_eq_getElem h1lt]
    have hcond1 : ¬((0 : Nat) = (ls.getD d []).length
        ∧ (ls.getD d []).length % 2 = 1) := by omega
    by_cases hd0 : d = 0
    · subst hd0
      refine ⟨[.leftChildWithSibling ((ls.getD 0 []).getD 1 [])], ?_, ?_⟩
      · simp only [Merkle.Tree.proveFrontier, hget, if_neg hcond1]
        norm_num
      · intro root
        simp only [Merkle.Commitment.verifyGo]
        norm_num
    · have hd1 : 1 ≤ d := by omega
      have hrel : ls.getD (d - 1) [] = Merkle.pairUp H (ls.getD d []) := by
        have := Merkle.Chained.getD_rel hch (d - 1) (by omega)
        rwa [show d - 1 + 1 = d by omega] at this
      have hwidth : (ls.getD d []).length / 2 + (ls.getD d []).length % 2
          = (ls.getD (d - 1) []).length := by
        rw [hrel, Merkle.pairUp_length]
        omega
      obtain ⟨fr, hfr, hver⟩ := ih ls hch hall hd1 (by omega)
      refine ⟨.leftChildWithSibling ((ls.getD d []).getD 1 []) :: fr, ?_, ?_⟩
      · simp only [Merkle.Tree.proveFrontier, hget, if_neg hcond1, if_neg hd0]
        simp only [List.getD_eq_getElem?_getD] at hwidth hfr ⊢
        simp [hwidth, hfr]
      · intro root
        have hstart : Merkle.hashTwoHashes H ((ls.getD d []).getD 0 [])
            ((ls.getD d []).getD 1 [])
            = (ls.getD (d - 1) []).getD 0 [] := by
          rw [hrel, Merkle.pairUp_getD_zero H _ hw2]
        have hv := hver root
        simp only [Merkle.Commitment.verifyGo]
        simp only [List.getD_eq_getElem?_getD] at hwidth hstart hv ⊢
        simp [hwidth, hstart, hv]

/-- Proving membership of the first leaf always succeeds on a freshly built
tree, and the resulting proof verifies against the commitment. -/
theorem Merkle.prove_head_verify (H : List Nat → List Nat)
    (leaves : List (List Nat)) (hne : leaves ≠ []) :
    ∃ fr,
      Merkle.Tree.prove H (Merkle.Tree.new H leaves) (leaves.headD []) 0
          = .ok (some ⟨leaves.headD [], 0, fr⟩) ∧
      Merkle.Commitment.verify H (Merkle.Tree.new H leaves).commitment
          ⟨leaves.headD [], 0, fr⟩ = .ok true := by
  obtain ⟨l0, rest, rfl⟩ : ∃ l0 rest, leaves = l0 :: rest := by
    cases leaves with
    | nil => exact absurd rfl hne
    | cons a b => exact ⟨a, b, rfl⟩
  by_cases hone : rest = []
  · subst hone
    refine ⟨[], ?_, ?_⟩
    · simp [Merkle.Tree.new, Merkle.Tree.prove]
    · simp [Merkle.Tree.new, Merkle.Tree.commitment, Merkle.Commitment.verify,
        Merkle.Commitment.verifyGo, Merkle.Tree.num_items]
  · have hlen2 : 2 ≤ ((l0 :: rest).map H).length := by
      cases rest with
      | nil => exact absurd rfl hone
      | cons b t => simp
    have hne1 : ¬ ((l0 :: rest).map H).length = 1 := by omega
    have htree : Merkle.Tree.new H (l0 :: rest)
        = Merkle.Tree.buildLoop H ((l0 :: rest).map H).length
            [(l0 :: rest).map H] := by
      simp only [Merkle.Tree.new]
      rw [if_neg hne1]
    obtain ⟨⟨pre, hpre⟩, hch, hall2, hnelev, hhead2, hroot⟩ :=
      Merkle.buildLoop_spec H ((l0 :: rest).map H).length [(l0 :: rest).map H]
        (by simp) (by simpa using hlen2) (by simp)
        (Merkle.Chained.single _)
        (by intro l hl; simp at hl; rw [hl]; exact hlen2)
    rw [← htree] at hpre hch hall2 hnelev hhead2 hroot
    have hdep : (Merkle.Tree.new H (l0 :: rest)).levels.length
        = pre.length + 1 := by
      rw [hpre]
      simp
    have hdpos : 1 ≤ (Merkle.Tree.new H (l0 :: rest)).levels.length := by omega
    have hidx : (pre ++ [(l0 :: rest).map H]).length - 1 = pre.length := by
      simp
    have hbotD : (Merkle.Tree.new H (l0 :: rest)).levels.getD
        ((Merkle.Tree.new H (l0 :: rest)).levels.length - 1) []
        = (l0 :: rest).map H := by
      rw [hpre, hidx, getD_append_last]
    have hnum : (Merkle.Tree.new H (l0 :: rest)).num_items
        = ((l0 :: rest).map H).length := by
      unfold Merkle.Tree.num_items
      rw [if_neg (by omega)]
      rw [hpre, getLastD_append_single]
    obtain ⟨fr, hfr, hver⟩ := Merkle.proveFrontier_spec H
      (Merkle.Tree.new H (l0 :: rest)).levels.length
      (Merkle.Tree.new H (l0 :: rest)).levels hch hall2 hdpos (by omega)
    rw [hbotD] at hfr hver
    refine ⟨fr, ?_, ?_⟩
    · simp only [Merkle.Tree.prove]
      rw [if_neg (by omega : ¬ (Merkle.Tree.new H (l0 :: rest)).levels.length = 0)]
      rw [hbotD]
      have hget0 : ((l0 :: rest).map H).get? 0 = some (H l0) := by simp
      rw [hget0, hnum]
      simp only [List.length_map, List.length_cons] at hfr
      simp [hfr]
    · unfold Merkle.Commitment.verify
      simp only [Merkle.Tree.commitment]
      have hheadhash : H ((l0 :: rest).headD [])
          = ((l0 :: rest).map H).getD 0 [] := by simp
      rw [hheadhash, hnum, hver]
      have htop : (Merkle.Tree.new H (l0 :: rest)).levels.getD 0 []
          = (Merkle.Tree.new H (l0 :: rest)).levels.headD [] :=
        (headD_eq_getD_zero _ _).symm
      rw [htop, ← hroot]
      simp

/-- The signing method never writes any field of the key: the state handed
back is always the input state, whatever branch is taken. -/
theorem Merkle.sign_snd (H : List Nat → List Nat) (k : Merkle.PrivateKey)
    (m : List Nat) : (Merkle.PrivateKey.sign H k m).2 = k := by
  simp only [Merkle.PrivateKey.sign]
  split
  · rfl
  · split <;> rfl

/-- Folding any number of signing calls leaves the key unchanged. -/
theorem Merkle.signState_id (H : List Nat → List Nat)
    (k : Merkle.PrivateKey) (ms : List (List Nat)) :
    Merkle.signState H k ms = k := by
  induction ms generalizing k with
  | nil => rfl
  | cons m t ih =>
    unfold Merkle.signState
    rw [List.foldl_cons, Merkle.sign_snd]
    exact ih k

/-- Signing with a freshly generated key of any capacity at least one
succeeds and the signature verifies against the derived public key. -/
theorem Merkle.sign_head_ok (H : List Nat → List Nat)
    (secrets : List Lamport.PrivateKey) (m : List Nat)
    (h1 : 0 < secrets.length)
    (h2 : (secrets.headD ⟨[], []⟩).left.length = 256)
    (h3 : (secrets.headD ⟨[], []⟩).right.length = 256) :
    ∃ sig,
      (Merkle.PrivateKey.sign H (Merkle.PrivateKey.fromParts H secrets 0) m).1
          = .ok (some sig) ∧
      Merkle.PublicKey.verify H
          (Merkle.PrivateKey.fromParts H secrets 0).public_key m sig
        = .ok true := by
  obtain ⟨s0, srest, rfl⟩ : ∃ s0 srest, secrets = s0 :: srest := by
    cases secrets with
    | nil => simp at h1
    | cons a b => exact ⟨a, b, rfl⟩
  have hl2 : s0.left.length = 256 := h2
  have hr2 : s0.right.length = 256 := h3
  obtain ⟨fr, hprove, hverify⟩ := Merkle.prove_head_verify H
    ((s0 :: srest).map fun k => (k.public_key H).to_bytes) (by simp)
  have hhead : (((s0 :: srest).map
      fun k => (k.public_key H).to_bytes).headD [])
      = ((s0.public_key H).to_bytes) := rfl
  rw [hhead] at hprove hverify
  refine ⟨⟨s0.sign H m, s0.public_key H, ⟨(s0.public_key H).to_bytes, 0, fr⟩⟩,
    ?_, ?_⟩
  · unfold Merkle.PrivateKey.sign Merkle.PrivateKey.fromParts
    rw [if_neg (by simp)]
    simp only [List.getD_cons_zero]
    rw [hprove]
  · unfold Merkle.PublicKey.verify Merkle.PrivateKey.public_key
      Merkle.PrivateKey.fromParts
    simp only
    rw [hverify]
    rw [Lamport.verify_sign_self H s0 m hl2 hr2]
    rfl

/-- The verification walk always terminates with a boolean: every early
rejection returns `false`, the frontier is traversed structurally, and the
guarded subtraction in the right-child arm can never underflow because the
parity test has just established that the index is odd, hence positive. -/
theorem Merkle.verifyGo_total (H : List Nat → List Nat) :
    ∀ (nodes : List Merkle.ProofNode) (root h : List Nat) (p w : Nat),
      ∃ b, Merkle.Commitment.verifyGo H root h p w nodes = .ok b := by
  intro nodes
  induction nodes with
  | nil =>
    intro root h p w
    exact ⟨_, rfl⟩
  | cons node rest ih =>
    intro root h p w
    cases node with
    | nodeWithoutSibling =>
      by_cases hc : p ≠ w ∧ w % 2 ≠ 1
      · refine ⟨false, ?_⟩
        simp only [Merkle.Commitment.verifyGo]
        rw [if_pos hc]
      · obtain ⟨b, hb⟩ := ih root h (p / 2) (w / 2 + w % 2)
        refine ⟨b, ?_⟩
        simp only [Merkle.Commitment.verifyGo]
        rw [if_neg hc]
        exact hb
    | leftChildWithSibling s =>
      by_cases hc : p % 2 ≠ 0
      · refine ⟨false, ?_⟩
        simp only [Merkle.Commitment.verifyGo]
        rw [if_pos hc]
      · obtain ⟨b, hb⟩ := ih root (Merkle.hashTwoHashes H h s) (p / 2)
          (w / 2 + w % 2)
        refine ⟨b, ?_⟩
        simp only [Merkle.Commitment.verifyGo]
        rw [if_neg hc]
        exact hb
    | rightChildWithSibling s =>
      by_cases hc : p % 2 ≠ 1
      · refine ⟨false, ?_⟩
        simp only [Merkle.Commitment.verifyGo]
        rw [if_pos hc]
      · have hp1 : 1 ≤ p := by omega
        have hcs : checkedSub p 1 = some (p - 1) := by
          simp [checkedSub, hp1]
        obtain ⟨b, hb⟩ := ih root (Merkle.hashTwoHashes H s h) ((p - 1) / 2)
          (w / 2 + w % 2)
        refine ⟨b, ?_⟩
        simp only [Merkle.Commitment.verifyGo]
        rw [if_neg hc, hcs]
        exact hb

/-! ## Concrete artifacts used by the claim evaluations -/

/-- A many-time signature forged against `keyA1`: the attacker pairs an
honest Merkle membership proof of slot 0 (whose item is key A's encoded
public key) with a Lamport keypair and signature of their own (key B). -/
def forgedSig : Merkle.Signature :=
  ⟨Lamport.PrivateKey.sign hC lamportKeyB [5],
   Lamport.PrivateKey.public_key hC lamportKeyB,
   ⟨(Lamport.PrivateKey.public_key hC lamportKeyA).to_bytes, 0, []⟩⟩

/-- A small concrete in-range Merkle proof. -/
def proofC : Merkle.Proof :=
  ⟨[1, 2], 3, [.nodeWithoutSibling, .leftChildWithSibling (List.replicate 32 5)]⟩

/-- A concrete in-range Lamport signature. -/
def lamportSigC : Lamport.Signature := ⟨List.replicate 256 (List.replicate 32 4)⟩

/-- A concrete in-range Lamport public key. -/
def lamportPubC : Lamport.PublicKey :=
  ⟨List.replicate 256 (List.replicate 32 6), List.replicate 256 (List.replicate 32 7)⟩

/-- A concrete in-range many-time signature. -/
def merkleSigC : Merkle.Signature := ⟨lamportSigC, lamportPubC, proofC⟩

/-- A concrete in-range many-time public key. -/
def merklePubC : Merkle.PublicKey := ⟨⟨List.replicate 32 9, 4⟩⟩

/-! ## Claim theorems -/

/-- Claim C1: the claim states that each successful `sign` increments the
counter, so that after `k` successful calls the counter equals `k`, and that
the call after exhaustion returns `None`.  The source method never assigns to
the counter, so the first conjunct shows the state returned by `sign` is the
input state for every key, and on a concrete capacity-1 key the counter is
still 0 after a successful signature and a second call again returns a
signature instead of `None`. -/
theorem Merkle.sign_never_increments_counter :
    (∀ (H : List Nat → List Nat) (k : Merkle.PrivateKey) (m : List Nat),
        (Merkle.PrivateKey.sign H k m).2 = k) ∧
    isOkSome (Merkle.PrivateKey.sign hC keyA1 [1]).1 = true ∧
    (Merkle.PrivateKey.sign hC keyA1 [1]).2.current_index = 0 ∧
    isOkSome (Merkle.PrivateKey.sign hC
        ((Merkle.PrivateKey.sign hC keyA1 [1]).2) [2]).1 = true :=
  ⟨Merkle.sign_snd, by decide, by decide, by decide⟩

/-- Claim C2: the claim states that many-time verification succeeds only when
the proof item equals the encoding of the embedded Lamport public key.  The
two checks are in fact independent: this signature carries an honest slot-0
Merkle proof for key A next to a Lamport public key and signature from the
unrelated key B, verification returns true, and the proof item differs from
the encoding of the embedded key. -/
theorem Merkle.verify_accepts_signature_with_foreign_lamport_key :
    Merkle.PublicKey.verify hC keyA1.public_key [5] forgedSig = .ok true ∧
    forgedSig.proof.item ≠ forgedSig.lamport_pub.to_bytes :=
  ⟨by decide, by decide⟩

/-- Claim C3: the claim states that `prove(L[i], i)` succeeds and verifies
for every index of a built tree, in particular index 2 of the 3-leaf tree
over `one`, `two`, `three`.  The promoted-node guard compares the position
against the width instead of width minus one, so the walk takes the
left-child branch at the last leaf of the odd bottom level and indexes one
past the end of the level: an out-of-bounds panic, modelled as an error. -/
theorem Merkle.prove_panics_on_last_leaf_of_odd_tree :
    Merkle.Tree.prove hC
        (Merkle.Tree.new hC [[111, 110, 101], [116, 119, 111],
          [116, 104, 114, 101, 101]])
        [116, 104, 114, 101, 101] 2 = .error () := by
  decide

/-- Claim C4: the claim states that a `NodeWithoutSibling` frontier entry is
accepted only when `p = w` and `w` is odd.  The source inverts the guard
incorrectly and rejects only when `p ≠ w` and `w` is even, so a commitment of
width 3 accepts a proof for index 0 whose single frontier entry is
`NodeWithoutSibling` even though `p = 0 ≠ 3 = w`, and with the root set to
the item hash the whole verification returns true. -/
theorem Merkle.verify_accepts_node_without_sibling_off_schedule :
    Merkle.Commitment.verify hC ⟨hC [7], 3⟩ ⟨[7], 0, [.nodeWithoutSibling]⟩
      = .ok true := by
  decide

/-- Claim C5: the claim states that `prove` returns `None` without panicking
whenever the item hash disagrees with the stored leaf hash, including on the
single-leaf tree.  On the single-leaf tree the mismatch case falls through to
`levels[depth - 1]` with `depth = 0`, an out-of-bounds panic, modelled as an
error; the first conjunct records that the item really hashes differently
from the root. -/
theorem Merkle.prove_panics_on_wrong_item_in_single_leaf_tree :
    hC [98, 121, 101] ≠ (Merkle.Tree.new hC [[104, 105]]).root ∧
    Merkle.Tree.prove hC (Merkle.Tree.new hC [[104, 105]]) [98, 121, 101] 0
      = .error () :=
  ⟨by decide, by decide⟩

/-- Claim C6: starting from a generated key of capacity at least one, after
any number of prior signing calls below the capacity, the next `sign` returns
a signature and that signature verifies against the derived public key.  (In
the source the counter never advances, so every call signs with slot 0 and
the claim holds for every call index.) -/
theorem Merkle.many_time_round_trip (H : List Nat → List Nat)
    (secrets : List Lamport.PrivateKey) (prior : List (List Nat))
    (m : List Nat)
    (h1 : 0 < secrets.length)
    (h2 : (secrets.headD ⟨[], []⟩).left.length = 256)
    (h3 : (secrets.headD ⟨[], []⟩).right.length = 256)
    (h4 : prior.length < secrets.length) :
    ∃ sig,
      (Merkle.PrivateKey.sign H
          (Merkle.signState H (Merkle.PrivateKey.fromParts H secrets 0) prior)
          m).1 = .ok (some sig) ∧
      Merkle.PublicKey.verify H
          (Merkle.PrivateKey.fromParts H secrets 0).public_key m sig
        = .ok true := by
  rw [Merkle.signState_id]
  exact Merkle.sign_head_ok H secrets m h1 h2 h3

/-- Witness for C6 at a concrete capacity-1 key and message. -/
theorem Merkle.many_time_round_trip_witness :
    ∃ sig,
      (Merkle.PrivateKey.sign hC
          (Merkle.signState hC (Merkle.PrivateKey.fromParts hC [lamportKeyA] 0)
            [])
          [42]).1 = .ok (some sig) ∧
      Merkle.PublicKey.verify hC
          (Merkle.PrivateKey.fromParts hC [lamportKeyA] 0).public_key [42] sig
        = .ok true :=
  Merkle.many_time_round_trip hC [lamportKeyA] [] [42] (by decide)
    (by simp [lamportKeyA]) (by simp [lamportKeyA]) (by decide)

/-- Claim C7: Lamport signing round trip: verifying a fresh signature with
the public key derived from the signing private key succeeds for every
message. -/
theorem Lamport.sign_verify_round_trip (H : List Nat → List Nat)
    (k : Lamport.PrivateKey) (m : List Nat)
    (h1 : k.left.length = 256) (h2 : k.right.length = 256) :
    Lamport.PublicKey.verify H (k.public_key H) m (k.sign H m) = true :=
  Lamport.verify_sign_self H k m h1 h2

/-- Witness for C7 at a concrete key and message. -/
theorem Lamport.sign_verify_round_trip_witness :
    Lamport.PublicKey.verify hC (Lamport.PrivateKey.public_key hC lamportKeyA)
      [3] (Lamport.PrivateKey.sign hC lamportKeyA [3]) = true :=
  Lamport.sign_verify_round_trip hC lamportKeyA [3]
    (by simp [lamportKeyA]) (by simp [lamportKeyA])

/-- Claim C8: decoding the canonical encoding returns the original value for
every in-range Merkle proof, many-time signature, many-time public key,
Lamport private key, Lamport public key and Lamport signature. -/
theorem codec_round_trip
    (p : Merkle.Proof) (hp : p.InRange)
    (sg : Merkle.Signature) (hsg : sg.InRange)
    (pk : Merkle.PublicKey) (hpk : pk.InRange)
    (k : Lamport.PrivateKey) (hk : k.InRange)
    (pb : Lamport.PublicKey) (hpb : pb.InRange)
    (s : Lamport.Signature) (hs : s.InRange) :
    Merkle.Proof.tryFrom p.encode = .ok p ∧
    Merkle.Signature.tryFrom sg.encode = .ok sg ∧
    Merkle.PublicKey.fromBytes pk.toBytes = pk ∧
    Lamport.PrivateKey.fromBytes k.toBytes = k ∧
    Lamport.PublicKey.fromBytes pb.to_bytes = pb ∧
    Lamport.Signature.fromBytes s.toBytes = s := by
  refine ⟨?_, ?_, Merkle.publicKeyBytes_round_trip pk hpk,
    Lamport.privateKeyBytes_round_trip k hk,
    Lamport.publicKeyBytes16384_round_trip pb hpb,
    Lamport.signatureBytes_round_trip s hs⟩
  · have h := Merkle.proof_decode_encode_append p hp []
    rwa [List.append_nil] at h
  · have h := Merkle.signature_decode_encode_append sg hsg []
    rwa [List.append_nil] at h

/-- Witness for C8 at concrete in-range values of all six artifact types. -/
theorem codec_round_trip_witness :
    Merkle.Proof.tryFrom proofC.encode = .ok proofC ∧
    Merkle.Signature.tryFrom merkleSigC.encode = .ok merkleSigC ∧
    Merkle.PublicKey.fromBytes merklePubC.toBytes = merklePubC ∧
    Lamport.PrivateKey.fromBytes lamportKeyA.toBytes = lamportKeyA ∧
    Lamport.PublicKey.fromBytes lamportPubC.to_bytes = lamportPubC ∧
    Lamport.Signature.fromBytes lamportSigC.toBytes = lamportSigC :=
  codec_round_trip proofC (by decide) merkleSigC (by decide)
    merklePubC (by decide) lamportKeyA (by decide)
    lamportPubC (by decide) lamportSigC (by decide)

/-- Claim C9: verification is total on every structurally valid input: the
Merkle commitment check and the composed many-time check always return a
boolean and never panic, for arbitrary item bytes, index and frontier. -/
theorem Merkle.verification_never_panics (H : List Nat → List Nat)
    (c : Merkle.Commitment) (pf : Merkle.Proof) (pk : Merkle.PublicKey)
    (m : List Nat) (sig : Merkle.Signature) :
    (∃ b, Merkle.Commitment.verify H c pf = .ok b) ∧
    (∃ b, Merkle.PublicKey.verify H pk m sig = .ok b) := by
  constructor
  · exact Merkle.verifyGo_total H pf.frontier c.root (H pf.item) pf.index
      c.num_items
  · obtain ⟨b, hb⟩ := Merkle.verifyGo_total H sig.proof.frontier
      pk.commitment.root (H sig.proof.item) sig.proof.index
      pk.commitment.num_items
    refine ⟨b && sig.lamport_pub.verify H m sig.lamport_sig, ?_⟩
    unfold Merkle.PublicKey.verify Merkle.Commitment.verify
    rw [hb]

/-- Claim C10: the proof and signature decoders read exactly the declared
lengths and ignore every trailing byte: decoding an encoding with an
arbitrary suffix succeeds and yields the same value as decoding the encoding
alone. -/
theorem decoding_ignores_trailing_bytes
    (p : Merkle.Proof) (hp : p.InRange)
    (sg : Merkle.Signature) (hsg : sg.InRange) (suffix : List Nat) :
    Merkle.Proof.tryFrom (p.encode ++ suffix) = .ok p ∧
    Merkle.Proof.tryFrom (p.encode ++ suffix) = Merkle.Proof.tryFrom p.encode ∧
    Merkle.Signature.tryFrom (sg.encode ++ suffix) = .ok sg ∧
    Merkle.Signature.tryFrom (sg.encode ++ suffix)
      = Merkle.Signature.tryFrom sg.encode := by
  have hp1 := Merkle.proof_decode_encode_append p hp suffix
  have hp2 := Merkle.proof_decode_encode_append p hp []
  have hs1 := Merkle.signature_decode_encode_append sg hsg suffix
  have hs2 := Merkle.signature_decode_encode_append sg hsg []
  rw [List.append_nil] at hp2 hs2
  exact ⟨hp1, by rw [hp1, hp2], hs1, by rw [hs1, hs2]⟩

/-- Witness for C10 at a concrete proof, signature and suffix. -/
theorem decoding_ignores_trailing_bytes_witness :
    Merkle.Proof.tryFrom (proofC.encode ++ [9, 9]) = .ok proofC ∧
    Merkle.Proof.tryFrom (proofC.encode ++ [9, 9])
      = Merkle.Proof.tryFrom proofC.encode ∧
    Merkle.Signature.tryFrom (merkleSigC.encode ++ [9, 9]) = .ok merkleSigC ∧
    Merkle.Signature.tryFrom (merkleSigC.encode ++ [9, 9])
      = Merkle.Signature.tryFrom merkleSigC.encode :=
  decoding_ignores_trailing_bytes proofC (by decide) merkleSigC (by decide)
    [9, 9]
